import Mathlib

set_option maxRecDepth 8192

namespace Kelp

/-! # Embedding of the kelp Reed-Solomon core

Shallow embedding of src/rs.c, src/rs_avx2.c and src/blockaio.c.
Machine bytes are Nat values below 256; the process-global lookup tables
written by init_gf are embedded as Nat-encoded byte tables (byte i of the
table is the Nat's i-th little-endian byte), so that table lookups are
single shift-and-mask operations. -/

/-- One step of the table-generation recurrence in init_gf (src/rs.c:37-38):
x = ((x << 1) ^ ((x & 0x80) ? 0x1d : 0)) & 0xFF, with 0x1d the reduction byte
of the primitive polynomial 0x11d. -/
def gfStep (x : Nat) : Nat :=
  ((x <<< 1) ^^^ (if x &&& 0x80 ≠ 0 then 0x1d else 0)) &&& 0xFF

/-- Byte i of a Nat-encoded byte table. -/
def tblGet (t i : Nat) : Nat := (t >>> (8 * i)) &&& 255

/-- The first loop of init_gf (src/rs.c:33-39), building gf_exp[0..254] and
gf_log as Nat-encoded byte tables: iteration i records exp[i] = x and
log[x] = i, then advances x with gfStep. The byte is deposited with a bitwise
or; every byte position is written at most once because the 255 exp values are
pairwise distinct, and all facts about the tables used below are pinned down by
decided lemmas rather than by the write order. -/
def gfBuild : Nat → Nat → Nat → Nat × Nat → Nat × Nat
  | 0, _, _, st => st
  | fuel+1, i, x, (e, l) =>
      gfBuild fuel (i+1) (gfStep x) (e ||| (x <<< (8*i)), l ||| (i <<< (8*x)))

/-- The exp and log tables produced by the init_gf loop (x starts at 1). -/
def gfTables : Nat × Nat := gfBuild 255 0 1 (0, 0)

/-- Nat-encoded gf_exp[0..254]. -/
def expN : Nat := gfTables.1

/-- Nat-encoded gf_log on [1..255] (gf_log[0] is a -1 sentinel in the source,
handled separately in gf_log below; the unwritten byte 0 of this Nat is 0). -/
def logN : Nat := gfTables.2

/-- The gf_exp array (src/rs.c:22,34-44): entries 0..254 from the loop,
exp[255] = 1 set after the loop, and entries 256..509 repeat with period 255. -/
def gf_exp (i : Nat) : Nat :=
  if i < 255 then tblGet expN i
  else if i = 255 then 1
  else tblGet expN (i - 255)

/-- gf_log (src/rs.c:23,36,41): -1 sentinel at 0, otherwise the table byte. -/
def gf_log (x : Nat) : Int :=
  if x = 0 then -1 else tblGet logN x

/-- The Nat-valued log-table lookup; the code only reads gf_log at nonzero
arguments along the paths embedded here, where it agrees with gf_log. -/
def logT (x : Nat) : Nat := tblGet logN x

/-- gf_mul_direct (src/rs.c:57-60). -/
def gf_mul_direct (a b : Nat) : Nat :=
  if a = 0 ∨ b = 0 then 0 else gf_exp ((logT a + logT b) % 255)

/-- gf_div_direct (src/rs.c:69-76); none models the exit(1) on b = 0 reached
when a is nonzero (the a = 0 early return fires first). The int expression
(gf_log[a] - gf_log[b] + 255) % 255 is embedded over Int and is nonnegative. -/
def gf_div_direct (a b : Nat) : Option Nat :=
  if a = 0 then some 0
  else if b = 0 then none
  else some (gf_exp ((((logT a : Int) - logT b + 255) % 255).toNat))

/-- gf_mul (src/rs.c:64-66) reads gf_mul_table[a*256+b]; init_gf (src/rs.c:49)
fills that entry with gf_mul_direct(a,b) for all a,b < 256, so the table
version is embedded as the direct form. -/
def gf_mul (a b : Nat) : Nat := gf_mul_direct a b

/-- A lookup of the flat global gf_div_table at index f, i.e. row f/256 and
column f%256. init_gf (src/rs.c:50-51) writes gf_div_direct(i,j) at every
column j ≠ 0; column 0 is never written, and the zero-initialized C global
stays 0 there. Several call sites (cauchy, matrix_invert) index this table
with a computed flat offset, so the embedding keeps the flat form. -/
def gf_div_table_flat (f : Nat) : Nat :=
  if f % 256 = 0 then 0 else (gf_div_direct (f / 256) (f % 256)).getD 0

/-- gf_div (src/rs.c:79-81): the table lookup gf_div_table[a*256+b]. -/
def gf_div (a b : Nat) : Nat := gf_div_table_flat (a * 256 + b)

/-- gf_pow (src/rs.c:84-88). -/
def gf_pow (a : Nat) (n : Nat) : Nat :=
  if n = 0 then 1 else if a = 0 then 0 else gf_exp ((logT a * n) % 255)

/-! ## Decided facts about the generated tables -/

theorem tblGet_lt (t i : Nat) : tblGet t i < 256 :=
  Nat.lt_succ_of_le (Nat.and_le_right)

theorem exp_ne_zero : ∀ i, i < 255 → tblGet expN i ≠ 0 := by decide

theorem log_lt : ∀ x, x < 256 → 0 < x → tblGet logN x < 255 := by decide

theorem exp_log : ∀ x, x < 256 → 0 < x → tblGet expN (tblGet logN x) = x := by
  decide

theorem log_exp : ∀ i, i < 255 → tblGet logN (tblGet expN i) = i := by decide

theorem xor_lt_256 : ∀ a, a < 256 → ∀ b, b < 256 → a ^^^ b < 256 := by
  intro a ha b hb
  have h : a ^^^ b < 2 ^ 8 := Nat.xor_lt_two_pow (by norm_num [ha]) (by norm_num [hb])
  norm_num at h
  exact h

/-! ## Field structure carried by the tables

The facts below are about the concrete tables written by init_gf; the
finitely-checkable ones are decided, the rest follow from them. -/

theorem gf_mul_lt (a b : Nat) : gf_mul a b < 256 := by
  unfold gf_mul gf_mul_direct
  split
  · norm_num
  · unfold gf_exp
    split
    · exact tblGet_lt _ _
    · split
      · norm_num
      · exact tblGet_lt _ _

theorem gf_mul_of_ne (a b : Nat) (ha : a ≠ 0) (hb : b ≠ 0) :
    gf_mul a b = tblGet expN ((logT a + logT b) % 255) := by
  have h : (logT a + logT b) % 255 < 255 := Nat.mod_lt _ (by norm_num)
  simp [gf_mul, gf_mul_direct, ha, hb, gf_exp, h]

theorem gf_mul_zero_left (b : Nat) : gf_mul 0 b = 0 := by
  simp [gf_mul, gf_mul_direct]

theorem gf_mul_zero_right (a : Nat) : gf_mul a 0 = 0 := by
  simp [gf_mul, gf_mul_direct]

theorem gf_mul_comm (a b : Nat) : gf_mul a b = gf_mul b a := by
  simp [gf_mul, gf_mul_direct, Nat.add_comm, or_comm]

theorem gf_mul_ne_zero (a b : Nat) (ha : a ≠ 0) (hb : b ≠ 0) :
    gf_mul a b ≠ 0 := by
  rw [gf_mul_of_ne a b ha hb]
  exact exp_ne_zero _ (Nat.mod_lt _ (by norm_num))

theorem logT_gf_mul (a b : Nat) (ha : a ≠ 0) (hb : b ≠ 0) :
    logT (gf_mul a b) = (logT a + logT b) % 255 := by
  rw [gf_mul_of_ne a b ha hb]
  exact log_exp _ (Nat.mod_lt _ (by norm_num))

theorem gf_mul_assoc_nat (a b c : Nat) :
    gf_mul (gf_mul a b) c = gf_mul a (gf_mul b c) := by
  rcases eq_or_ne a 0 with rfl | ha0
  · simp [gf_mul_zero_left]
  rcases eq_or_ne b 0 with rfl | hb0
  · simp [gf_mul_zero_left, gf_mul_zero_right]
  rcases eq_or_ne c 0 with rfl | hc0
  · simp [gf_mul_zero_right]
  have hab := gf_mul_ne_zero a b ha0 hb0
  have hbc := gf_mul_ne_zero b c hb0 hc0
  rw [gf_mul_of_ne _ c hab hc0, gf_mul_of_ne a _ ha0 hbc,
    logT_gf_mul a b ha0 hb0, logT_gf_mul b c hb0 hc0,
    Nat.mod_add_mod, Nat.add_mod_mod, Nat.add_assoc]

theorem logT_one : logT 1 = 0 := by decide

theorem logT_lt (x : Nat) (h1 : x < 256) (h0 : 0 < x) : logT x < 255 :=
  log_lt x h1 h0

theorem exp_logT (x : Nat) (h1 : x < 256) (h0 : 0 < x) :
    tblGet expN (logT x) = x :=
  exp_log x h1 h0

theorem gf_one_mul (a : Nat) (ha : a < 256) : gf_mul 1 a = a := by
  rcases eq_or_ne a 0 with rfl | ha0
  · simp [gf_mul_zero_right]
  rw [gf_mul_of_ne 1 a one_ne_zero ha0, logT_one, Nat.zero_add,
    Nat.mod_eq_of_lt (logT_lt a ha (Nat.pos_of_ne_zero ha0))]
  exact exp_logT a ha (Nat.pos_of_ne_zero ha0)

/-! ### Distributivity of the table product over xor

The exp table satisfies the recurrence exp[i+1] = gfStep(exp[i]) with
wrap-around (a finitely checked fact of the generated table), gfStep is
xor-linear, and multiplication by a nonzero byte a is gfStep iterated
gf_log[a] times; distributivity over xor follows symbolically. -/

theorem nat_xor_left_comm (a b c : Nat) : a ^^^ (b ^^^ c) = b ^^^ (a ^^^ c) := by
  rw [← Nat.xor_assoc, Nat.xor_comm a b, Nat.xor_assoc]

theorem xor_shiftLeft (x y n : Nat) : (x ^^^ y) <<< n = x <<< n ^^^ y <<< n := by
  apply Nat.eq_of_testBit_eq
  intro i
  by_cases h : n ≤ i <;>
    simp [Nat.testBit_shiftLeft, Nat.testBit_xor, h]

/-- The exp table steps by gfStep. -/
theorem exp_step : ∀ i, i < 254 →
    tblGet expN (i + 1) = gfStep (tblGet expN i) := by decide

/-- The exp table wraps around: one more gfStep returns to exp[0] = 1. -/
theorem exp_wrap : gfStep (tblGet expN 254) = tblGet expN 0 := by decide

theorem exp_zero : tblGet expN 0 = 1 := by decide

theorem gfStep_zero : gfStep 0 = 0 := by decide

theorem and128 (z : Nat) : z &&& 0x80 = if z.testBit 7 then 0x80 else 0 := by
  rw [(by norm_num : (0x80 : Nat) = 2 ^ 7), Nat.and_two_pow]
  rcases z.testBit 7 <;> simp

theorem gfStep_eq_testBit (z : Nat) :
    gfStep z = ((z <<< 1) ^^^ (if z.testBit 7 then 0x1d else 0)) &&& 0xFF := by
  unfold gfStep
  rw [and128]
  rcases h : z.testBit 7 <;> simp [h]

/-- gfStep is xor-linear: the shift distributes over xor, the conditional
reduction byte is determined by bit 7 which also xors, and the final mask
distributes over xor. -/
theorem gfStep_xor (x y : Nat) : gfStep (x ^^^ y) = gfStep x ^^^ gfStep y := by
  rw [gfStep_eq_testBit x, gfStep_eq_testBit y, gfStep_eq_testBit (x ^^^ y),
    Nat.testBit_xor, xor_shiftLeft]
  rcases hx : x.testBit 7 <;> rcases hy : y.testBit 7 <;>
    simp only [hx, hy, Bool.xor_false, Bool.xor_true, Bool.not_true,
      Bool.not_false, if_true, if_false, Bool.false_xor, Bool.true_xor] <;>
    simp [Nat.and_xor_distrib_right, Nat.xor_assoc, Nat.xor_comm,
      nat_xor_left_comm, Nat.xor_self]

/-- Iterating gfStep k times. -/
def gfStepIter : Nat → Nat → Nat
  | 0, x => x
  | k+1, x => gfStepIter k (gfStep x)

theorem gfStepIter_xor (k x y : Nat) :
    gfStepIter k (x ^^^ y) = gfStepIter k x ^^^ gfStepIter k y := by
  induction k generalizing x y with
  | zero => rfl
  | succ k ih => simp only [gfStepIter, gfStep_xor, ih]

theorem gfStepIter_zero (k : Nat) : gfStepIter k 0 = 0 := by
  induction k with
  | zero => rfl
  | succ k ih => simp only [gfStepIter, gfStep_zero, ih]

/-- Iterating from exp[i] walks the exp table cyclically. -/
theorem exp_add_iter (k : Nat) : ∀ i, i < 255 →
    tblGet expN ((i + k) % 255) = gfStepIter k (tblGet expN i) := by
  induction k with
  | zero =>
    intro i hi
    simp [gfStepIter, Nat.mod_eq_of_lt hi]
  | succ k ih =>
    intro i hi
    have hstep : tblGet expN ((i + 1) % 255) = gfStep (tblGet expN i) := by
      rcases Nat.lt_or_ge i 254 with h | h
      · rw [Nat.mod_eq_of_lt (by omega)]
        exact exp_step i h
      · have : i = 254 := by omega
        subst this
        rw [(by norm_num : (254 + 1) % 255 = 0)]
        exact (exp_wrap).symm
    have h1 : (i + (k + 1)) % 255 = ((i + 1) % 255 + k) % 255 := by
      rw [Nat.mod_add_mod]
      omega
    rw [h1, ih _ (Nat.mod_lt _ (by norm_num)), hstep]
    rfl

/-- Multiplication by a nonzero byte is an iterate of gfStep. -/
theorem gf_mul_eq_iter (a b : Nat) (ha0 : a ≠ 0) (ha : a < 256) (hb : b < 256) :
    gf_mul a b = gfStepIter (logT a) b := by
  rcases eq_or_ne b 0 with rfl | hb0
  · rw [gf_mul_zero_right, gfStepIter_zero]
  · rw [gf_mul_of_ne a b ha0 hb0, Nat.add_comm,
      exp_add_iter (logT a) (logT b) (logT_lt b hb (Nat.pos_of_ne_zero hb0)),
      exp_logT b hb (Nat.pos_of_ne_zero hb0)]

/-- Distributivity of table multiplication over xor, on bytes. -/
theorem gf_mul_xor (c a b : Nat) (hc : c < 256) (ha : a < 256) (hb : b < 256) :
    gf_mul c (a ^^^ b) = gf_mul c a ^^^ gf_mul c b := by
  rcases eq_or_ne c 0 with rfl | hc0
  · simp [gf_mul_zero_left]
  rw [gf_mul_eq_iter c _ hc0 hc (xor_lt_256 a ha b hb),
    gf_mul_eq_iter c a hc0 hc ha, gf_mul_eq_iter c b hc0 hc hb,
    gfStepIter_xor]

/-! ## The field GF(256) as a commutative ring structure on bytes -/

/-- The byte type carrying init_gf's field structure: addition is xor,
multiplication the table product. Declared as its own structure so that it
carries these instances rather than the modular arithmetic of Fin 256. -/
structure gf256 where
  val : Nat
  isLt : val < 256
deriving DecidableEq

theorem gf256.ext {a b : gf256} (h : a.val = b.val) : a = b := by
  cases a
  cases b
  simpa using h

def g256 (x : Nat) (h : x < 256) : gf256 := ⟨x, h⟩

instance : Zero gf256 := ⟨⟨0, by norm_num⟩⟩
instance : One gf256 := ⟨⟨1, by norm_num⟩⟩
instance : Add gf256 := ⟨fun a b => ⟨a.val ^^^ b.val, xor_lt_256 _ a.isLt _ b.isLt⟩⟩
instance : Mul gf256 := ⟨fun a b => ⟨gf_mul a.val b.val, gf_mul_lt _ _⟩⟩
instance : Neg gf256 := ⟨fun a => a⟩

theorem gval_add (a b : gf256) : (a + b).val = a.val ^^^ b.val := rfl
theorem gval_mul (a b : gf256) : (a * b).val = gf_mul a.val b.val := rfl
theorem gval_zero : (0 : gf256).val = 0 := rfl
theorem gval_one : (1 : gf256).val = 1 := rfl

instance : CommRing gf256 where
  nsmul := nsmulRec
  zsmul := zsmulRec
  add_assoc a b c := by
    apply gf256.ext
    exact Nat.xor_assoc a.val b.val c.val
  add_comm a b := by
    apply gf256.ext
    exact Nat.xor_comm a.val b.val
  zero_add a := by
    apply gf256.ext
    exact Nat.zero_xor a.val
  add_zero a := by
    apply gf256.ext
    exact Nat.xor_zero a.val
  neg_add_cancel a := by
    apply gf256.ext
    exact Nat.xor_self a.val
  mul_assoc a b c := by
    apply gf256.ext
    exact gf_mul_assoc_nat a.val b.val c.val
  mul_comm a b := by
    apply gf256.ext
    exact gf_mul_comm a.val b.val
  one_mul a := by
    apply gf256.ext
    exact gf_one_mul a.val a.isLt
  mul_one a := by
    apply gf256.ext
    show gf_mul a.val 1 = a.val
    rw [gf_mul_comm]
    exact gf_one_mul a.val a.isLt
  zero_mul a := by
    apply gf256.ext
    exact gf_mul_zero_left a.val
  mul_zero a := by
    apply gf256.ext
    exact gf_mul_zero_right a.val
  left_distrib a b c := by
    apply gf256.ext
    exact gf_mul_xor a.val b.val c.val a.isLt b.isLt c.isLt
  right_distrib a b c := by
    apply gf256.ext
    show gf_mul (a.val ^^^ b.val) c.val = gf_mul a.val c.val ^^^ gf_mul b.val c.val
    rw [gf_mul_comm, gf_mul_xor c.val a.val b.val c.isLt a.isLt b.isLt,
      gf_mul_comm c.val a.val, gf_mul_comm c.val b.val]

theorem gval_injective : Function.Injective gf256.val := by
  intro a b h
  exact gf256.ext h

theorem gf_add_self (x : gf256) : x + x = 0 := gf256.ext (Nat.xor_self _)

theorem gf_exp_lt (i : Nat) : gf_exp i < 256 := by
  unfold gf_exp
  split
  · exact tblGet_lt _ _
  split
  · norm_num
  · exact tblGet_lt _ _

theorem gf_div_table_flat_lt (f : Nat) : gf_div_table_flat f < 256 := by
  unfold gf_div_table_flat gf_div_direct
  split
  · norm_num
  · split
    · norm_num
    · simpa using gf_exp_lt _

/-- The value gf_div_table[256*1 + x], i.e. the multiplicative inverse lookup
1/x used by matrix_invert (src/rs.c:296) and cauchy (src/rs.c:149). -/
def gf_inv_entry (x : gf256) : gf256 :=
  g256 (gf_div_table_flat (256 + x.val)) (gf_div_table_flat_lt _)

/-- The table inverse is a right inverse for nonzero bytes: the scaled pivot of
matrix_invert becomes 1. -/
theorem gf_mul_inv_entry (x : gf256) (hx : x ≠ 0) : x * gf_inv_entry x = 1 := by
  have hxv : x.val ≠ 0 := fun h => hx (gf256.ext h)
  have hxlt := x.isLt
  have hpos : 0 < x.val := Nat.pos_of_ne_zero hxv
  have hmod : (256 + x.val) % 256 = x.val := by omega
  have hdiv : (256 + x.val) / 256 = 1 := by omega
  apply gf256.ext
  show gf_mul x.val (gf_div_table_flat (256 + x.val)) = 1
  rw [gf_div_table_flat, if_neg (by omega), hdiv, hmod, gf_div_direct,
    if_neg one_ne_zero, if_neg hxv, Option.getD_some, logT_one]
  simp only [Nat.cast_zero]
  rcases eq_or_ne (logT x.val) 0 with hl0 | hl0
  · have hx1 : x.val = 1 := by
      have h2 := exp_logT x.val hxlt hpos
      rw [hl0, exp_zero] at h2
      omega
    rw [hx1]
    decide
  · have hlt : logT x.val < 255 := logT_lt x.val hxlt hpos
    have harith : (((0 : Int) - logT x.val + 255) % 255).toNat = 255 - logT x.val := by
      rw [Int.emod_eq_of_lt (by omega) (by omega)]
      omega
    rw [harith]
    have hklt : 255 - logT x.val < 255 := by omega
    have hexp : gf_exp (255 - logT x.val) = tblGet expN (255 - logT x.val) := by
      rw [gf_exp, if_pos hklt]
    rw [hexp]
    have hne : tblGet expN (255 - logT x.val) ≠ 0 := exp_ne_zero _ hklt
    rw [gf_mul_of_ne _ _ hxv hne]
    have hlog : logT (tblGet expN (255 - logT x.val)) = 255 - logT x.val :=
      log_exp _ hklt
    rw [hlog, (by omega : logT x.val + (255 - logT x.val) = 255),
      (by norm_num : (255 : Nat) % 255 = 0)]
    exact exp_zero

/-! ## Matrix engine (src/rs.c:258-320, matrix_invert)

Square matrices over gf256. The in-place Gauss-Jordan of the source is
embedded as explicit state passing on a pair (matrix, inverse); each C row
operation becomes the same operation applied to both components. -/

abbrev Mat (n : Nat) := Matrix (Fin n) (Fin n) gf256

/-- Row swap (src/rs.c:275-283): rows i and j exchanged. -/
def rowSwap {n : Nat} (m : Mat n) (i j : Fin n) : Mat n :=
  Matrix.of fun r c => m (if r = i then j else if r = j then i else r) c

/-- Row scaling (src/rs.c:297-300): row i multiplied on the right by t. -/
def rowScale {n : Nat} (m : Mat n) (i : Fin n) (t : gf256) : Mat n :=
  Matrix.of fun r c => if r = i then m r c * t else m r c

/-- Row elimination (src/rs.c:308-311): row j updated to row j + t * row i. -/
def rowAddMul {n : Nat} (m : Mat n) (j i : Fin n) (t : gf256) : Mat n :=
  Matrix.of fun r c => if r = j then m r c + t * m i c else m r c

/-- The pivot search of src/rs.c:272-286: the first row below i with a nonzero
entry in column i. -/
def pivotSearch {n : Nat} (m : Mat n) (i : Fin n) : Option (Fin n) :=
  (List.finRange n).find? fun j => decide (i < j) && decide (m j i ≠ 0)

/-- One elimination step of the inner loop (src/rs.c:304-314) on row j. -/
def elimRow {n : Nat} (i : Fin n) (p : Mat n × Mat n) (j : Fin n) :
    Mat n × Mat n :=
  if j = i then p
  else if p.1 j i = 0 then p
  else (rowAddMul p.1 j i (p.1 j i), rowAddMul p.2 j i (p.1 j i))

/-- The elimination loop over all rows (src/rs.c:304-314). -/
def gjElim {n : Nat} (i : Fin n) (p : Mat n × Mat n) : Mat n × Mat n :=
  (List.finRange n).foldl (elimRow i) p

/-- One iteration of the outer Gauss-Jordan loop (src/rs.c:270-315): fix up a
zero pivot by swapping with a later row (failing if none exists), rescale the
pivot row to 1 unless the pivot is already 1, then eliminate column i from all
other rows. -/
def gjStep {n : Nat} (i : Fin n) (p : Mat n × Mat n) :
    Option (Mat n × Mat n) :=
  (if p.1 i i ≠ 0 then some p
   else
     match pivotSearch p.1 i with
     | some j => some (rowSwap p.1 i j, rowSwap p.2 i j)
     | none => none).map fun q =>
    gjElim i
      (if q.1 i i ≠ 1 then
        (rowScale q.1 i (gf_inv_entry (q.1 i i)),
         rowScale q.2 i (gf_inv_entry (q.1 i i)))
      else q)

def gjLoop {n : Nat} : List (Fin n) → Mat n × Mat n → Option (Mat n × Mat n)
  | [], p => some p
  | i :: rest, p => (gjStep i p).bind (gjLoop rest)

/-- matrix_invert (src/rs.c:258-320): runs Gauss-Jordan on the matrix and a
shadow identity and, on success, returns the accumulated inverse (which the
source copies back into the caller's buffer at src/rs.c:317). -/
def matrix_invert {n : Nat} (m : Mat n) : Option (Mat n) :=
  (gjLoop (List.finRange n) (m, 1)).map Prod.snd

/-! ### Correctness of the embedded Gauss-Jordan

Two invariants: the working matrix always equals the accumulated inverse times
the original matrix (every C row operation hits both arrays), and after the
outer loop has processed columns below k those columns form identity columns.
On success the working matrix is therefore the identity and the accumulated
inverse is a two-sided inverse. -/

theorem rowSwap_mul {n : Nat} (A B : Mat n) (i j : Fin n) :
    rowSwap (A * B) i j = rowSwap A i j * B := by
  ext r c
  simp only [rowSwap, Matrix.of_apply, Matrix.mul_apply]

theorem rowScale_mul {n : Nat} (A B : Mat n) (i : Fin n) (t : gf256) :
    rowScale (A * B) i t = rowScale A i t * B := by
  ext r c
  simp only [rowScale, Matrix.of_apply, Matrix.mul_apply]
  split
  · rw [Finset.sum_mul]
    exact Finset.sum_congr rfl fun k _ => by ring
  · rfl

theorem rowAddMul_mul {n : Nat} (A B : Mat n) (j i : Fin n) (t : gf256) :
    rowAddMul (A * B) j i t = rowAddMul A j i t * B := by
  ext r c
  simp only [rowAddMul, Matrix.of_apply, Matrix.mul_apply]
  split
  · rw [Finset.mul_sum, ← Finset.sum_add_distrib]
    exact Finset.sum_congr rfl fun k _ => by ring
  · rfl

/-- The state invariant: working matrix = accumulated inverse times original. -/
def GJInv {n : Nat} (m0 : Mat n) (p : Mat n × Mat n) : Prop :=
  p.1 = p.2 * m0

theorem elimRow_inv {n : Nat} (m0 : Mat n) (i : Fin n) (p : Mat n × Mat n)
    (j : Fin n) (h : GJInv m0 p) : GJInv m0 (elimRow i p j) := by
  unfold GJInv at *
  unfold elimRow
  split
  · exact h
  · split
    · exact h
    · show rowAddMul p.1 j i (p.1 j i) = rowAddMul p.2 j i (p.1 j i) * m0
      rw [h]
      exact rowAddMul_mul _ _ _ _ _

theorem gjElim_inv {n : Nat} (m0 : Mat n) (i : Fin n) (p : Mat n × Mat n)
    (h : GJInv m0 p) : GJInv m0 (gjElim i p) := by
  unfold gjElim
  generalize List.finRange n = l
  induction l generalizing p with
  | nil => exact h
  | cons j l ih => exact ih _ (elimRow_inv m0 i p j h)

theorem scaleStage_inv {n : Nat} (m0 : Mat n) (i : Fin n) (q : Mat n × Mat n)
    (h : GJInv m0 q) :
    GJInv m0
      (if q.1 i i ≠ 1 then
        (rowScale q.1 i (gf_inv_entry (q.1 i i)),
         rowScale q.2 i (gf_inv_entry (q.1 i i)))
      else q) := by
  split
  · unfold GJInv at *
    show rowScale q.1 i _ = rowScale q.2 i _ * m0
    rw [h]
    exact rowScale_mul _ _ _ _
  · exact h

theorem gjStep_inv {n : Nat} (m0 : Mat n) (i : Fin n) (p q : Mat n × Mat n)
    (h : gjStep i p = some q) (hp : GJInv m0 p) : GJInv m0 q := by
  unfold gjStep at h
  rcases Option.map_eq_some'.1 h with ⟨p1, hp1, hq⟩
  have hinv1 : GJInv m0 p1 := by
    by_cases hz : p.1 i i ≠ 0
    · rw [if_pos hz] at hp1
      cases hp1
      exact hp
    · rw [if_neg hz] at hp1
      rcases hps : pivotSearch p.1 i with _ | j
      · rw [hps] at hp1
        cases hp1
      · rw [hps] at hp1
        cases hp1
        unfold GJInv at *
        show rowSwap p.1 i j = rowSwap p.2 i j * m0
        rw [hp]
        exact rowSwap_mul _ _ _ _
  rw [← hq]
  exact gjElim_inv m0 i _ (scaleStage_inv m0 i p1 hinv1)

/-- Columns below k are identity columns. -/
def IdCols {n : Nat} (k : Nat) (m : Mat n) : Prop :=
  ∀ c : Fin n, (c : ℕ) < k → ∀ r, m r c = if r = c then (1 : gf256) else 0

theorem IdCols_zero {n : Nat} (m : Mat n) : IdCols 0 m :=
  fun _ hc => absurd hc (Nat.not_lt_zero _)

theorem IdCols_full {n : Nat} (m : Mat n) (h : IdCols n m) : m = 1 := by
  ext r c
  rw [h c c.isLt r, Matrix.one_apply]

theorem IdCols_rowSwap {n : Nat} (m : Mat n) (i j : Fin n) (hij : i < j)
    (h : IdCols (i : ℕ) m) : IdCols (i : ℕ) (rowSwap m i j) := by
  intro c hc r
  have hijv : (i : ℕ) < (j : ℕ) := hij
  have hic : i ≠ c := by
    intro he
    rw [← he] at hc
    omega
  have hjc : j ≠ c := by
    intro he
    rw [← he] at hc
    omega
  show m (if r = i then j else if r = j then i else r) c = _
  by_cases hri : r = i
  · subst hri
    rw [if_pos rfl, h c hc j, if_neg hjc, if_neg hic]
  · by_cases hrj : r = j
    · subst hrj
      have hji : r ≠ i := hri
      rw [if_neg hji, if_pos rfl, h c hc i, if_neg hic, if_neg hjc]
    · rw [if_neg hri, if_neg hrj]
      exact h c hc r

theorem IdCols_rowScale {n : Nat} (m : Mat n) (i : Fin n) (t : gf256)
    (h : IdCols (i : ℕ) m) : IdCols (i : ℕ) (rowScale m i t) := by
  intro c hc r
  have hic : i ≠ c := by
    intro he
    rw [← he] at hc
    omega
  show (if r = i then m r c * t else m r c) = _
  by_cases hri : r = i
  · subst hri
    rw [if_pos rfl, h c hc r, if_neg hic, zero_mul]
  · rw [if_neg hri]
    exact h c hc r

theorem elimRow_fst_row_i {n : Nat} (i : Fin n) (p : Mat n × Mat n)
    (j : Fin n) (c : Fin n) : (elimRow i p j).1 i c = p.1 i c := by
  unfold elimRow
  split
  · rfl
  next hji =>
    split
    · rfl
    · show (if i = j then p.1 i c + p.1 j i * p.1 i c else p.1 i c) = p.1 i c
      rw [if_neg fun he => hji he.symm]

theorem elimRow_fst_row_ne {n : Nat} (i : Fin n) (p : Mat n × Mat n)
    (j r : Fin n) (hr : r ≠ j) (c : Fin n) :
    (elimRow i p j).1 r c = p.1 r c := by
  unfold elimRow
  split
  · rfl
  · split
    · rfl
    · show (if r = j then p.1 r c + p.1 j i * p.1 i c else p.1 r c) = p.1 r c
      rw [if_neg hr]

theorem elimRow_fst_row_j {n : Nat} (i : Fin n) (p : Mat n × Mat n)
    (j : Fin n) (hji : j ≠ i) (c : Fin n) :
    (elimRow i p j).1 j c = p.1 j c + p.1 j i * p.1 i c := by
  unfold elimRow
  rw [if_neg hji]
  split
  next h0 =>
    rw [h0, zero_mul, add_zero]
  · show (if j = j then p.1 j c + p.1 j i * p.1 i c else p.1 j c) = _
    rw [if_pos rfl]

/-- Closed form for the elimination fold: row i is untouched, every other row
processed exactly once gains t times the pivot row, with t its own column-i
entry read before any change to it. -/
theorem foldl_elimRow_fst {n : Nat} (i : Fin n) (l : List (Fin n))
    (hl : l.Nodup) (p : Mat n × Mat n) (r c : Fin n) :
    ((l.foldl (elimRow i) p).1) r c =
      if r ∈ l ∧ r ≠ i then p.1 r c + p.1 r i * p.1 i c else p.1 r c := by
  induction l generalizing p with
  | nil => simp
  | cons j l ih =>
    rcases List.nodup_cons.1 hl with ⟨hjl, hl'⟩
    rw [List.foldl_cons, ih hl']
    by_cases hrj : r = j
    · subst hrj
      by_cases hri : r = i
      · subst hri
        have hmem1 : ¬(r ∈ l ∧ r ≠ r) := fun hx => hx.2 rfl
        have hmem2 : ¬(r ∈ r :: l ∧ r ≠ r) := fun hx => hx.2 rfl
        rw [if_neg hmem1, if_neg hmem2, elimRow_fst_row_i]
      · have hmem1 : ¬(r ∈ l ∧ r ≠ i) := fun hx => hjl (hx.1)
        have hmem2 : r ∈ r :: l ∧ r ≠ i := ⟨List.mem_cons_self r l, hri⟩
        rw [if_neg hmem1, if_pos hmem2, elimRow_fst_row_j i p r hri]
    · by_cases hmem : r ∈ l ∧ r ≠ i
      · have hmem2 : r ∈ j :: l ∧ r ≠ i :=
          ⟨List.mem_cons_of_mem _ hmem.1, hmem.2⟩
        rw [if_pos hmem, if_pos hmem2, elimRow_fst_row_ne i p j r hrj,
          elimRow_fst_row_ne i p j r hrj, elimRow_fst_row_i]
      · have hmem2 : ¬(r ∈ j :: l ∧ r ≠ i) := by
          rintro ⟨hm, hne⟩
          rcases List.mem_cons.1 hm with h1 | h1
          · exact hrj h1
          · exact hmem ⟨h1, hne⟩
        rw [if_neg hmem, if_neg hmem2, elimRow_fst_row_ne i p j r hrj]

/-- After elimination with a unit pivot, columns up to and including i are
identity columns. -/
theorem gjElim_IdCols {n : Nat} (i : Fin n) (p : Mat n × Mat n)
    (hpiv : p.1 i i = 1) (hId : IdCols (i : ℕ) p.1) :
    IdCols ((i : ℕ) + 1) (gjElim i p).1 := by
  intro c hc r
  rw [gjElim, foldl_elimRow_fst i _ (List.nodup_finRange n) p r c]
  rcases Nat.lt_or_ge (c : ℕ) (i : ℕ) with hci | hci
  · have hic : i ≠ c := by
      intro he
      rw [← he] at hci
      omega
    have h1 : p.1 i c = 0 := by
      rw [hId c hci i, if_neg hic]
    split
    · rw [h1, mul_zero, add_zero]
      exact hId c hci r
    · exact hId c hci r
  · have hceq : c = i := Fin.ext (by omega)
    subst hceq
    by_cases hri : r = c
    · subst hri
      have hmem : ¬(r ∈ List.finRange n ∧ r ≠ r) := fun hx => hx.2 rfl
      rw [if_neg hmem, hpiv, if_pos rfl]
    · have hmem : r ∈ List.finRange n ∧ r ≠ c :=
        ⟨List.mem_finRange r, hri⟩
      rw [if_pos hmem, hpiv, mul_one, gf_add_self, if_neg hri]

theorem pivotSearch_some {n : Nat} (m : Mat n) (i j : Fin n)
    (h : pivotSearch m i = some j) : i < j ∧ m j i ≠ 0 := by
  have := List.find?_some h
  rw [Bool.and_eq_true, decide_eq_true_eq, decide_eq_true_eq] at this
  exact this

theorem gjStep_IdCols {n : Nat} (i : Fin n) (p q : Mat n × Mat n)
    (h : gjStep i p = some q) (hId : IdCols (i : ℕ) p.1) :
    IdCols ((i : ℕ) + 1) q.1 := by
  unfold gjStep at h
  rcases Option.map_eq_some'.1 h with ⟨p1, hp1, hq⟩
  have hfix : IdCols (i : ℕ) p1.1 ∧ p1.1 i i ≠ 0 := by
    by_cases hz : p.1 i i ≠ 0
    · rw [if_pos hz] at hp1
      cases hp1
      exact ⟨hId, hz⟩
    · rw [if_neg hz] at hp1
      rcases hps : pivotSearch p.1 i with _ | j
      · rw [hps] at hp1
        cases hp1
      · rw [hps] at hp1
        cases hp1
        rcases pivotSearch_some p.1 i j hps with ⟨hij, hji⟩
        refine ⟨IdCols_rowSwap p.1 i j hij hId, ?_⟩
        show p.1 (if i = i then j else if i = j then i else i) i ≠ 0
        rw [if_pos rfl]
        exact hji
  have hstage : IdCols (i : ℕ)
      (if p1.1 i i ≠ 1 then
        (rowScale p1.1 i (gf_inv_entry (p1.1 i i)),
         rowScale p1.2 i (gf_inv_entry (p1.1 i i)))
      else p1).1 ∧
      (if p1.1 i i ≠ 1 then
        (rowScale p1.1 i (gf_inv_entry (p1.1 i i)),
         rowScale p1.2 i (gf_inv_entry (p1.1 i i)))
      else p1).1 i i = 1 := by
    split
    next hne1 =>
      constructor
      · exact IdCols_rowScale p1.1 i _ hfix.1
      · show (if i = i then p1.1 i i * gf_inv_entry (p1.1 i i) else p1.1 i i) = 1
        rw [if_pos rfl]
        exact gf_mul_inv_entry _ hfix.2
    next hne1 =>
      exact ⟨hfix.1, not_not.1 hne1⟩
  rw [← hq]
  exact gjElim_IdCols i _ hstage.2 hstage.1

theorem finRange_drop_cons (n k : Nat) (hk : k < n) :
    (List.finRange n).drop k = ⟨k, hk⟩ :: (List.finRange n).drop (k + 1) := by
  have hlen : k < (List.finRange n).length := by simpa using hk
  rw [List.drop_eq_getElem_cons hlen]
  congr 1
  simp

/-- The outer loop, run from column k to the end, carries both invariants. -/
theorem gjLoop_spec {n : Nat} (m0 : Mat n) :
    ∀ d k, k + d = n → ∀ p q : Mat n × Mat n,
      GJInv m0 p → IdCols k p.1 →
      gjLoop ((List.finRange n).drop k) p = some q →
      GJInv m0 q ∧ IdCols n q.1 := by
  intro d
  induction d with
  | zero =>
    intro k hk p q hInv hId hloop
    have hkn : k = n := by omega
    subst hkn
    rw [List.drop_eq_nil_of_le (by simp)] at hloop
    cases hloop
    exact ⟨hInv, hId⟩
  | succ d ih =>
    intro k hk p q hInv hId hloop
    have hkn : k < n := by omega
    rw [finRange_drop_cons n k hkn, gjLoop] at hloop
    rcases Option.bind_eq_some.1 hloop with ⟨p1, hstep, hrest⟩
    exact ih (k + 1) (by omega) p1 q
      (gjStep_inv m0 _ p p1 hstep hInv)
      (gjStep_IdCols ⟨k, hkn⟩ p p1 hstep hId)
      hrest

/-- matrix_invert computes a two-sided inverse when it succeeds. -/
theorem matrix_invert_mul {n : Nat} (m inv2 : Mat n)
    (h : matrix_invert m = some inv2) : inv2 * m = 1 ∧ m * inv2 = 1 := by
  unfold matrix_invert at h
  rcases Option.map_eq_some'.1 h with ⟨q, hq, hinv⟩
  have h0 : GJInv m ((m, (1 : Mat n)) : Mat n × Mat n) := by
    unfold GJInv
    rw [Matrix.one_mul]
  have hdrop : (List.finRange n).drop 0 = List.finRange n := List.drop_zero _
  have hspec := gjLoop_spec m n 0 (by omega) (m, 1) q h0
    (IdCols_zero _) (by rw [hdrop]; exact hq)
  rcases hspec with ⟨hInv, hId⟩
  have hq1 : q.1 = 1 := IdCols_full _ hId
  have hleft : q.2 * m = 1 := by
    rw [← hInv]
    exact hq1
  rw [← hinv]
  exact ⟨hleft, Matrix.mul_eq_one_comm.mp hleft⟩

/-! ## Reed-Solomon coder construction (src/rs.c:325-415) -/

/-- cauchy (src/rs.c:140-155): entry (i,j) is the flat gf_div_table lookup at
index 256*1 + i ^ (rows + j); by C operator precedence (+ binds tighter than ^)
the flat index is (256 + i) ^ (rows + j). -/
def cauchy (rows cols : Nat) : Matrix (Fin rows) (Fin cols) gf256 :=
  Matrix.of fun i j =>
    g256 (gf_div_table_flat ((256 + (i : ℕ)) ^^^ (rows + (j : ℕ))))
      (gf_div_table_flat_lt _)

/-- The reed_solomon struct (src/rs.h:18-24): the N x K generator matrix and
its bottom M x K parity block; the shard counts are carried in the type. -/
structure RS (K M : Nat) where
  matrix : Matrix (Fin (K + M)) (Fin K) gf256
  parity : Matrix (Fin M) (Fin K) gf256

/-- sub_matrix(vm, 0, 0, K, K, ...) (src/rs.c:359): the top K x K block. -/
def topSquare {K M : Nat} (vm : Matrix (Fin (K + M)) (Fin K) gf256) : Mat K :=
  Matrix.of fun i j => vm (Fin.castLE (Nat.le_add_right K M) i) j

/-- rs_new (src/rs.c:325-415): parameter guards, Cauchy matrix construction,
inversion of its top K x K block, generator matrix V * T⁻¹ (multiply1,
src/rs.c:375) and its bottom parity block (src/rs.c:383). none models the
error paths (bad parameters, singular top block); allocation failure is not
modelled. -/
def rs_new (K M : Nat) : Option (RS K M) :=
  if K + M > 255 ∨ K = 0 ∨ M = 0 then none
  else
    match matrix_invert (topSquare (cauchy (K + M) K)) with
    | none => none
    | some inv2 =>
      some ⟨cauchy (K + M) K * inv2,
        Matrix.of fun i j => (cauchy (K + M) K * inv2) (Fin.natAdd K i) j⟩

/-- The top K x K block of a coder's generator matrix. -/
def topBlock {K M : Nat} (rs : RS K M) : Mat K :=
  Matrix.of fun i j => rs.matrix (Fin.castLE (Nat.le_add_right K M) i) j

theorem rs_new_eq {K M : Nat} (rs : RS K M) (h : rs_new K M = some rs) :
    ∃ inv2, matrix_invert (topSquare (cauchy (K + M) K)) = some inv2 ∧
      rs.matrix = cauchy (K + M) K * inv2 := by
  unfold rs_new at h
  split at h
  · cases h
  · rcases hmi : matrix_invert (topSquare (cauchy (K + M) K)) with _ | inv2 <;>
      rw [hmi] at h
    · cases h
    · cases h
      exact ⟨inv2, rfl, rfl⟩

theorem topBlock_eq_one {K M : Nat} (rs : RS K M) (h : rs_new K M = some rs) :
    topBlock rs = 1 := by
  rcases rs_new_eq rs h with ⟨inv2, hmi, hmat⟩
  have htop := (matrix_invert_mul _ _ hmi).2
  have : topBlock rs = topSquare (cauchy (K + M) K) * inv2 := by
    rcases rs with ⟨mtx, par⟩
    cases hmat
    ext i j
    show (cauchy (K + M) K * inv2) (Fin.castLE (Nat.le_add_right K M) i) j = _
    rw [Matrix.mul_apply, Matrix.mul_apply]
    rfl
  rw [this, htop]

/-- C4: for every K, M with 1 ≤ K, 1 ≤ M, K + M ≤ 255, the coder returned by
rs_new(K, M) has a generator matrix whose top K x K block is the identity
(G[i][j] = 1 if i = j else 0 for i, j < K). In this pure embedding the coder
is never mutated by rs_encode or rs_decode, which only read rs.matrix, so the
systematic form persists across later calls. -/
theorem c4_rs_new_systematic (K M : Nat) (h1 : 1 ≤ K) (h2 : 1 ≤ M)
    (h3 : K + M ≤ 255) (rs : RS K M) (h : rs_new K M = some rs)
    (i j : Fin K) :
    rs.matrix (Fin.castLE (Nat.le_add_right K M) i) j =
      if i = j then 1 else 0 := by
  have h4 := congrFun (congrFun (topBlock_eq_one rs h) i) j
  rw [Matrix.one_apply] at h4
  exact h4

/-- The coder rs_new(2, 1) used to witness C4. -/
def rsW21 : RS 2 1 := (rs_new 2 1).get (by decide)

theorem c4_witness :
    1 ≤ 2 ∧ 1 ≤ 1 ∧ 2 + 1 ≤ 255 ∧
      rsW21.matrix (Fin.castLE (Nat.le_add_right 2 1) ⟨0, by norm_num⟩)
          ⟨1, by norm_num⟩ =
        if (⟨0, by norm_num⟩ : Fin 2) = ⟨1, by norm_num⟩ then 1 else 0 :=
  ⟨by norm_num, by norm_num, by norm_num,
    c4_rs_new_systematic 2 1 (by norm_num) (by norm_num) (by norm_num) rsW21
      (Option.some_get _).symm ⟨0, by norm_num⟩ ⟨1, by norm_num⟩⟩

/-! ## Bulk byte-buffer operations (src/rs_avx2.c) -/

/-- One 64-byte chunk of the AVX2 loop of mul1_avx2 (src/rs_avx2.c:26-58).
lut is the plain 256-entry row MUL[c][.] of gf_mul_table (src/rs_avx2.c:24),
so the eight 16-byte shuffle tables t0_lo..t3_hi are lut[0..16), lut[16..32),
..., lut[112..128), i.e. gf_mul c applied to 0..127. The byte shuffle selects
table[nibble] per byte; chunk output byte p < 32 combines the nibbles of
a = chunk[p] and b = chunk[p+32] through t0_lo..t3_lo, and output byte 32+p
combines the same nibbles through t0_hi..t3_hi. -/
def simdChunk (c : Nat) (chunk : List Nat) : List Nat :=
  (List.range 64).map fun p =>
    if p < 32 then
      gf_mul c (chunk.getD p 0 % 16) ^^^
        gf_mul c (16 + chunk.getD p 0 / 16) ^^^
        gf_mul c (32 + chunk.getD (p + 32) 0 % 16) ^^^
        gf_mul c (48 + chunk.getD (p + 32) 0 / 16)
    else
      gf_mul c (64 + chunk.getD (p - 32) 0 % 16) ^^^
        gf_mul c (80 + chunk.getD (p - 32) 0 / 16) ^^^
        gf_mul c (96 + chunk.getD p 0 % 16) ^^^
        gf_mul c (112 + chunk.getD p 0 / 16)

/-- mul1_avx2 (src/rs_avx2.c:23-64): 64-byte SIMD chunks while at least 64
bytes remain, then the scalar table fallback dst[i] = MUL[c][src[i]]
(src/rs_avx2.c:61-63). The buffer length stands for the sz argument; all call
sites pass shard_size-long buffers. -/
def mul1Chunks (c : Nat) : Nat → List Nat → List Nat
  | 0, src => src.map (gf_mul c)
  | q+1, src => simdChunk c (src.take 64) ++ mul1Chunks c q (src.drop 64)

def mul1_avx2 (src : List Nat) (c : Nat) : List Nat :=
  mul1Chunks c (src.length / 64) src

/-- mul_add1_avx2 (src/rs_avx2.c:67-108): identical chunking, with the chunk
(or scalar product) xor-accumulated into dst. -/
def mulAdd1Chunks (c : Nat) : Nat → List Nat → List Nat → List Nat
  | 0, dst, src => List.zipWith (fun d s => d ^^^ gf_mul c s) dst src
  | q+1, dst, src =>
      List.zipWith (· ^^^ ·) (dst.take 64) (simdChunk c (src.take 64)) ++
        mulAdd1Chunks c q (dst.drop 64) (src.drop 64)

def mul_add1_avx2 (dst src : List Nat) (c : Nat) : List Nat :=
  mulAdd1Chunks c (dst.length / 64) dst src

/-- add1_avx2 (src/rs_avx2.c:110-125): bytewise xor; the 64-byte SIMD path and
the scalar tail compute the same bytes, so no chunk split is needed. -/
def add1_avx2 (dst src : List Nat) : List Nat :=
  List.zipWith (fun d s => d ^^^ s) dst src

/-- The 64-byte source buffer 10 00 .. 00 exhibiting the SIMD divergence. -/
def c2src : List Nat := 0x10 :: List.replicate 63 0

/-- C2: claimed, bulk_mul stores dst[i] = MUL[c][src[i]] for every i < n, the
SIMD chunk path and the scalar fallback agreeing. In fact the SIMD path
shuffles the plain multiplication-table row with nibble indices (a layout that
would require nibble-product tables), producing
MUL[c][lo(s[p]) xor hi(s[p]) xor lo(s[p+32]) xor hi(s[p+32])]-style values:
for c = 2 and src = 10 00 .. 00 (64 bytes) it stores dst[0] = 0x02 where the
scalar table gives MUL[2][0x10] = 0x20. -/
theorem c2_mul1_avx2_simd_bug :
    (mul1_avx2 c2src 2).getD 0 0 = 0x02 ∧
      gf_mul 2 (c2src.getD 0 0) = 0x20 ∧
      (mul1_avx2 c2src 2).getD 0 0 ≠ gf_mul 2 (c2src.getD 0 0) := by
  decide

/-! ## rs_encode and rs_decode (src/rs.c:420-499) -/

/-- rs_encode (src/rs.c:420-442): for each parity row, fold over the data
shards with a first-nonzero-coefficient flag; coefficient 0 skips, the first
nonzero coefficient initializes the buffer (memcpy for coefficient 1,
mul1_avx2 otherwise), later nonzero coefficients accumulate (add1_avx2 for 1,
mul_add1_avx2 otherwise). parity0 holds the caller's parity buffers, returned
untouched when a parity row is all zero. -/
def rs_encode {K M : Nat} (rs : RS K M) (data : Fin K → List Nat)
    (parity0 : Fin M → List Nat) : Fin M → List Nat := fun i =>
  ((List.finRange K).foldl
    (fun st j =>
      let coeff := rs.matrix (Fin.natAdd K i) j
      if coeff = 0 then st
      else if st.1 then
        (false, if coeff = 1 then data j else mul1_avx2 (data j) coeff.val)
      else
        (false, if coeff = 1 then add1_avx2 st.2 (data j)
          else mul_add1_avx2 st.2 (data j) coeff.val))
    (true, parity0 i)).2

/-- rs_decode (src/rs.c:446-499). Erasure flags are C ints: flag 0 marks a
survivor, flag 1 a shard to rebuild; erasure_count is the separately passed
int count the early guard trusts. The decode submatrix is built from the rows
of G at the first K survivors; if fewer than K shards carry flag 0 the source
reads uninitialized malloc memory for the remaining rows, modelled here as
zero rows (no theorem relies on that case). For an erased shard i the source
reads submatrix[i * K + j], which for i ≥ K lies beyond the K x K inverse
(heap junk), modelled as coefficient 0 (again not relied upon). Erased shards
are rebuilt from survivor buffers only, so the in-place writes of the source
are order-independent and modelled pointwise. -/
def rs_decode {K M : Nat} (rs : RS K M) (shards : Fin (K + M) → List Nat)
    (erasures : Fin (K + M) → Nat) (erasure_count : Int) (shard_size : Nat) :
    Nat × (Fin (K + M) → List Nat) :=
  if ((K + M : Nat) : Int) - erasure_count < (K : Int) then (0, shards)
  else
    let valids :=
      ((List.finRange (K + M)).filter fun i => erasures i == 0).take K
    let submatrix : Mat K := Matrix.of fun v j =>
      match valids.get? (v : ℕ) with
      | some i => rs.matrix i j
      | none => 0
    match matrix_invert submatrix with
    | none => (0, shards)
    | some sinv =>
      (1, fun i =>
        if erasures i == 1 then
          (List.finRange K).foldl
            (fun (buf : List Nat) (j : Fin K) =>
              mul_add1_avx2 buf
                (match valids.get? (j : ℕ) with
                 | some v => shards v
                 | none => [])
                (if h : (i : ℕ) < K then sinv ⟨(i : ℕ), h⟩ j else 0).val)
            (List.replicate shard_size 0)
        else shards i)

/-- C10: whenever the erasure count exceeds the parity count, rs_decode takes
the early guard (src/rs.c:452-455) and returns 0 with every shard buffer as
passed in. -/
theorem c10_decode_guard {K M : Nat} (rs : RS K M)
    (shards : Fin (K + M) → List Nat) (erasures : Fin (K + M) → Nat)
    (erasure_count : Int) (shard_size : Nat)
    (h : (M : Int) < erasure_count) :
    rs_decode rs shards erasures erasure_count shard_size = (0, shards) := by
  unfold rs_decode
  rw [if_pos (by push_cast; omega)]

theorem c10_witness :
    ((1 : Nat) : Int) < 2 ∧
      rs_decode rsW21 (fun _ => []) (fun _ => 0) 2 0 = (0, fun _ => []) :=
  ⟨by norm_num, c10_decode_guard rsW21 (fun _ => []) (fun _ => 0) 2 0
    (by norm_num)⟩

/-! ## C1: encode-then-decode at shard_size 64 -/

/-- The coder rs_new(1, 1). -/
def rsW11 : RS 1 1 := (rs_new 1 1).get (by decide)

/-- Data shard 0 for the C1 failing run: bytes 10 00 .. 00. -/
def c1data : List Nat := 0x10 :: List.replicate 63 0

/-- The parity shard produced by rs_encode for that data. -/
def c1parity : List Nat :=
  rs_encode rsW11 (fun _ => c1data) (fun _ => List.replicate 64 0)
    ⟨0, by norm_num⟩

/-- The shard array after erasing (zeroing) data shard 0. -/
def c1shards : Fin 2 → List Nat := fun i =>
  if (i : ℕ) = 0 then List.replicate 64 0 else c1parity

def c1erasures : Fin 2 → Nat := fun i => if (i : ℕ) = 0 then 1 else 0

def c1run : Nat × (Fin 2 → List Nat) :=
  rs_decode rsW11 c1shards c1erasures 1 64

/-- C1: claimed, for every coder, data assignment and erasure pattern of
weight at most M, rs_decode restores every erased shard exactly and returns
success. At shard_size 64 the broken SIMD path of mul1_avx2/mul_add1_avx2
(see the C2 theorem) corrupts both the encoded parity and the
reconstruction: with K = M = 1, data shard 10 00 .. 00 (64 bytes) and data
shard 0 erased, rs_decode returns success but reconstructs shard 0 as all
zeroes instead of the original bytes. -/
theorem c1_decode_not_restoring :
    c1run.1 = 1 ∧
      c1run.2 ⟨0, by norm_num⟩ = List.replicate 64 0 ∧
      c1run.2 ⟨0, by norm_num⟩ ≠ c1data := by
  decide

/-! ## rs_generic_galois_coding (src/rs.c:511-570)

The source addresses rs->matrix, its scratch matrices and
reconstruction_matrix through flat byte offsets computed with
data_shards := input_count, so the embedding works on flat byte lists. -/

/-- The generator matrix as the flat byte array rs->matrix points at
(row-major, row length K). -/
def flatG {K M : Nat} (rs : RS K M) : List Nat :=
  (List.finRange (K + M)).flatMap fun i =>
    (List.finRange K).map fun j => (rs.matrix i j).val

/-- A memcpy of len bytes starting at flat offset off. -/
def flatSlice (l : List Nat) (off len : Nat) : List Nat :=
  (l.drop off).take len

/-- A flat row-major byte list viewed as an n x n matrix over gf256 (all
bytes produced by the embedding are below 256; the defensive branch is never
taken on the runs below). -/
def toMat (n : Nat) (rows : List Nat) : Mat n :=
  Matrix.of fun i j =>
    if h : rows.getD ((i : ℕ) * n + (j : ℕ)) 0 < 256 then
      ⟨rows.getD ((i : ℕ) * n + (j : ℕ)) 0, h⟩
    else 0

/-- An n x n matrix flattened back to the byte layout of the C scratch
buffers. -/
def matToFlat (n : Nat) (m : Mat n) : List Nat :=
  (List.finRange n).flatMap fun i =>
    (List.finRange n).map fun j => (m i j).val

/-- matrix_multiply (src/rs.c:200-209): a square n x n product on flat byte
arrays, result[i*n+j] accumulated by xor. -/
def matrix_multiply (a b : List Nat) (n : Nat) : List Nat :=
  (List.range (n * n)).map fun idx =>
    (List.range n).foldl
      (fun acc k =>
        acc ^^^ gf_mul (a.getD (idx / n * n + k) 0) (b.getD (k * n + idx % n) 0))
      0

/-- The inner application loop of rs_generic_galois_coding (src/rs.c:544-564)
for output index i: fold over j < data_shards with the first-flag, writing
into shards[i]. When j = i the C source and destination buffers are the same
memory; each primitive reads its source bytes before storing, so the aliased
call equals the pure call on the current buffer, which st.2 tracks. -/
def galois_apply_row (shardsCur : List (List Nat)) (recon : List Nat)
    (dsh i : Nat) : List Nat :=
  ((List.range dsh).foldl
    (fun (st : Bool × List Nat) j =>
      let coeff := recon.getD (i * dsh + j) 0
      let src := if j = i then st.2 else shardsCur.getD j []
      if coeff = 0 then st
      else if st.1 then
        (false, if coeff = 1 then src else mul1_avx2 src coeff)
      else
        (false, if coeff = 1 then add1_avx2 st.2 src
          else mul_add1_avx2 st.2 src coeff))
    (true, shardsCur.getD i [])).2

/-- rs_generic_galois_coding (src/rs.c:511-570). data_shards is
input_count. Input-matrix rows whose shard id is not below input_count are
left uninitialized by the source (src/rs.c:519-523) and modelled as zero
rows; entries of reconstruction_matrix beyond the output_count x output_count
block filled by matrix_multiply are likewise uninitialized and modelled as 0
by getD. No theorem below relies on either case. The output loop writes
shards[i] for i below output_count — the first buffers of the array — and
reads shards[j] for j below data_shards, with writes visible to later
iterations. -/
def rs_generic_galois_coding {K M : Nat} (rs : RS K M) (shard_ids : List Nat)
    (input_count output_count : Nat) (shards : List (List Nat)) :
    Nat × List (List Nat) :=
  let dsh := input_count
  let input_matrix : List Nat :=
    ((List.range dsh).map fun i =>
      if shard_ids.getD i 0 < dsh then
        flatSlice (flatG rs) (shard_ids.getD i 0 * dsh) dsh
      else List.replicate dsh 0).flatten
  match matrix_invert (toMat dsh input_matrix) with
  | none => (0, shards)
  | some inv2 =>
    let output_matrix : List Nat :=
      ((List.range output_count).map fun i =>
        flatSlice (flatG rs) ((dsh + shard_ids.getD i 0) * dsh) dsh).flatten
    let recon := matrix_multiply output_matrix (matToFlat dsh inv2) output_count
    (1, (List.range output_count).foldl
      (fun cur i => cur.set i (galois_apply_row cur recon dsh i)) shards)

/-- The coder rs_new(2, 2). -/
def rsW22 : RS 2 2 := (rs_new 2 2).get (by decide)

/-- Shard buffers for the C3 run: two input shards holding bytes 01 and 00,
then two output shards (inputs-then-outputs layout documented at
src/rs.c:509) holding 00. -/
def c3shards : List (List Nat) := [[1], [0], [0], [0]]

def c3run : Nat × List (List Nat) :=
  rs_generic_galois_coding rsW22 [0, 1, 2, 3] 2 2 c3shards

/-- C3: claimed, with input ids 0,1 (rows A = identity) and output ids 2,3,
the call succeeds and writes each output shard buffer to R · inputs with
R = B · A⁻¹, here the parity rows (d0 6b; 6b d0), so shards[2] should become
[d0] and shards[3] [6b] while the inputs stay untouched (src/rs.c:503 keeps
the input shards read-only). Instead the code indexes both B and the output
buffers with the first entries of shard_ids: it returns success but leaves
the output buffers untouched and overwrites the input buffers (shard 0, which
held [01], becomes [d0]; shard 1 is then computed from the already clobbered
shard 0). -/
theorem c3_galois_coding_bug :
    c3run.1 = 1 ∧
      (rsW22.parity ⟨0, by norm_num⟩ ⟨0, by norm_num⟩).val = 0xd0 ∧
      (rsW22.parity ⟨1, by norm_num⟩ ⟨0, by norm_num⟩).val = 0x6b ∧
      c3run.2.getD 2 [] = [0] ∧
      c3run.2.getD 3 [] = [0] ∧
      c3run.2.getD 2 [] ≠ [gf_mul 0xd0 1 ^^^ gf_mul 0x6b 0] ∧
      c3run.2.getD 0 [] = [0xd0] ∧
      c3run.2.getD 0 [] ≠ c3shards.getD 0 [] := by
  decide

/-! ## Scalar field-operation claims (C5, C6, C9) -/

theorem gf_exp_eq_tbl (k : Nat) (h : k < 255) : gf_exp k = tblGet expN k :=
  if_pos h

theorem logT_tbl_exp (i : Nat) (h : i < 255) : logT (tblGet expN i) = i :=
  log_exp i h

theorem gf_div_eq_direct (a b : Nat) (hb0 : b ≠ 0) (hb : b < 256) :
    gf_div a b = (gf_div_direct a b).getD 0 := by
  unfold gf_div gf_div_table_flat
  have h1 : (a * 256 + b) % 256 = b := by omega
  have h2 : (a * 256 + b) / 256 = a := by omega
  rw [if_neg (by omega), h1, h2]

theorem gf_div_zero_left (b : Nat) (hb0 : b ≠ 0) (hb : b < 256) :
    gf_div 0 b = 0 := by
  rw [gf_div_eq_direct 0 b hb0 hb, gf_div_direct, if_pos rfl, Option.getD_some]

theorem gf_div_of_ne (a b : Nat) (ha0 : a ≠ 0) (hb0 : b ≠ 0) (hb : b < 256) :
    gf_div a b =
      gf_exp (((logT a : Int) - logT b + 255) % 255).toNat := by
  rw [gf_div_eq_direct a b hb0 hb, gf_div_direct, if_neg ha0, if_neg hb0,
    Option.getD_some]

theorem div_exponent_lt (x : Int) : ((x % 255).toNat) < 255 := by
  have h1 := Int.emod_nonneg x (by norm_num : (255 : Int) ≠ 0)
  have h2 := Int.emod_lt_of_pos x (by norm_num : (0 : Int) < 255)
  omega

/-- C5: after init_gf, for every a < 256 and nonzero b < 256,
gf_div(gf_mul(a,b), b) = a and gf_mul(gf_div(a,b), b) = a: the DIV and MUL
tables are mutually inverse in the second argument. -/
theorem c5_mul_div_inverse (a : Nat) (ha : a < 256) (b : Nat) (hb : b < 256)
    (hb0 : 0 < b) :
    gf_div (gf_mul a b) b = a ∧ gf_mul (gf_div a b) b = a := by
  have hbne : b ≠ 0 := Nat.pos_iff_ne_zero.mp hb0
  have hlb : logT b < 255 := logT_lt b hb hb0
  rcases eq_or_ne a 0 with rfl | ha0
  · constructor
    · rw [gf_mul_zero_left]
      exact gf_div_zero_left b hbne hb
    · rw [gf_div_zero_left b hbne hb]
      exact gf_mul_zero_left b
  have hpa : 0 < a := Nat.pos_of_ne_zero ha0
  have hla : logT a < 255 := logT_lt a ha hpa
  constructor
  · -- gf_div (gf_mul a b) b = a
    have hm := gf_mul_of_ne a b ha0 hbne
    have hmlt : (logT a + logT b) % 255 < 255 := Nat.mod_lt _ (by norm_num)
    have hmne : gf_mul a b ≠ 0 := gf_mul_ne_zero a b ha0 hbne
    have hlogm : logT (gf_mul a b) = (logT a + logT b) % 255 :=
      logT_gf_mul a b ha0 hbne
    rw [gf_div_of_ne _ b hmne hbne hb, hlogm]
    have harith :
        (((((logT a + logT b) % 255 : Nat) : Int) - logT b + 255) % 255).toNat
          = logT a := by
      omega
    rw [harith, gf_exp_eq_tbl _ hla]
    exact exp_logT a ha hpa
  · -- gf_mul (gf_div a b) b = a
    rw [gf_div_of_ne a b ha0 hbne hb]
    have hDlt := div_exponent_lt ((logT a : Int) - logT b + 255)
    rw [gf_exp_eq_tbl _ hDlt]
    have hdne : tblGet expN (((logT a : Int) - logT b + 255) % 255).toNat ≠ 0 :=
      exp_ne_zero _ hDlt
    rw [gf_mul_of_ne _ b hdne hbne, logT_tbl_exp _ hDlt]
    have harith :
        ((((logT a : Int) - logT b + 255) % 255).toNat + logT b) % 255
          = logT a := by
      omega
    rw [harith]
    exact exp_logT a ha hpa

theorem c5_witness :
    (7 : Nat) < 256 ∧ (3 : Nat) < 256 ∧ 0 < (3 : Nat) ∧
      (gf_div (gf_mul 7 3) 3 = 7 ∧ gf_mul (gf_div 7 3) 3 = 7) :=
  ⟨by norm_num, by norm_num, by norm_num,
    c5_mul_div_inverse 7 (by norm_num) 3 (by norm_num) (by norm_num)⟩

/-- C6 counterexample: gf_div(7, 0) does not abort; the table version simply
reads the never-initialized column 0 of gf_div_table and returns the value
0. -/
theorem c6_div_by_zero_returns :
    gf_div 7 0 = 0 := by decide

/-- C6 amended: gf_div(a, 0) returns 0 for every byte a (the zero-initialized,
never-written column 0 of the global table); only the helper gf_div_direct,
which init_gf never calls with divisor 0, would terminate the process. -/
theorem c6_div_by_zero_amended (a : Nat) (ha : a < 256) :
    gf_div a 0 = 0 ∧ (0 < a → gf_div_direct a 0 = none) := by
  constructor
  · show gf_div_table_flat (a * 256 + 0) = 0
    unfold gf_div_table_flat
    rw [if_pos (by omega)]
  · intro ha0
    unfold gf_div_direct
    rw [if_neg (by omega), if_pos rfl]

theorem c6_witness :
    (7 : Nat) < 256 ∧
      (gf_div 7 0 = 0 ∧ (0 < (7 : Nat) → gf_div_direct 7 0 = none)) :=
  ⟨by norm_num, c6_div_by_zero_amended 7 (by norm_num)⟩

/-- C9 counterexample: the claimed sanity values are those of the AES field
0x11b, not of this field 0x11d: gf_mul(0x53, 0xCA) is 0x8f here, not 0x01. -/
theorem c9_claimed_values_false :
    ¬(gf_mul 0x53 0xCA = 0x01 ∧ gf_div 0x01 0x53 = 0xCA ∧
      gf_pow 2 8 = 0x1D) := by
  decide

/-- C9 amended: in the field generated by 0x11d the concrete values are
gf_mul(0x53, 0xCA) = 0x8F, gf_div(0x01, 0x53) = 0x8C, and
gf_pow(2, 8) = 0x1D. -/
theorem c9_gf_sanity_amended :
    gf_mul 0x53 0xCA = 0x8F ∧ gf_div 0x01 0x53 = 0x8C ∧
      gf_pow 2 8 = 0x1D := by
  decide

/-! ## Spread and unspread (src/blockaio.c:141-187)

The while loops move 16-byte chunks round-robin; each pass of the while body
is one round distributing (or collecting) 16 bytes per block. The loops run
exactly size / (16 k) rounds, which the embeddings take as explicit fuel. -/

/-- One round of spread_data (src/blockaio.c:150-157): block i receives the
16 bytes at offset 16 i of the remaining input. -/
def spreadRound (src : List Nat) (k : Nat) : List (List Nat) :=
  (List.range k).map fun i => (src.drop (16 * i)).take 16

def spreadRounds (k : Nat) : Nat → List Nat → List (List Nat)
  | 0, _ => List.replicate k []
  | q+1, src =>
      List.zipWith (· ++ ·) (spreadRound src k)
        (spreadRounds k q (src.drop (16 * k)))

/-- spread_data (src/blockaio.c:141-159): the input is cut into 16-byte
chunks handed round-robin to the k output blocks; a tail shorter than 16 k
bytes is not moved. -/
def spread_data (input : List Nat) (k : Nat) : List (List Nat) :=
  spreadRounds k (input.length / (16 * k)) input

def unspreadRounds (k : Nat) : Nat → List (List Nat) → List Nat
  | 0, _ => []
  | q+1, blocks =>
      (blocks.map fun b => b.take 16).flatten ++
        unspreadRounds k q (blocks.map fun b => b.drop 16)

/-- unspread_data (src/blockaio.c:169-187): 16 bytes are collected from each
of the k blocks in turn, for output_size / (16 k) rounds. -/
def unspread_data (blocks : List (List Nat)) (output_size k : Nat) :
    List Nat :=
  unspreadRounds k (output_size / (16 * k)) blocks

theorem spreadRounds_length (k q : Nat) (src : List Nat) :
    (spreadRounds k q src).length = k := by
  induction q generalizing src with
  | zero => simp [spreadRounds]
  | succ q ih =>
    simp [spreadRounds, spreadRound, ih]

theorem spreadRound_mem_length (src : List Nat) (k : Nat)
    (h : 16 * k ≤ src.length) :
    ∀ a ∈ spreadRound src k, a.length = 16 := by
  intro a ha
  rcases List.mem_map.1 ha with ⟨i, hi, rfl⟩
  have hik : i < k := List.mem_range.1 hi
  rw [List.length_take, List.length_drop]
  omega

theorem zip_append_split :
    ∀ A B : List (List Nat), (∀ a ∈ A, a.length = 16) → A.length = B.length →
      (List.zipWith (· ++ ·) A B).map (fun l => l.take 16) = A ∧
      (List.zipWith (· ++ ·) A B).map (fun l => l.drop 16) = B := by
  intro A
  induction A with
  | nil =>
    intro B _ hlen
    cases B
    · simp
    · simp at hlen
  | cons a A ih =>
    intro B hmem hlen
    cases B with
    | nil => simp at hlen
    | cons b B =>
      have ha : a.length = 16 := hmem a (List.mem_cons_self _ _)
      have ih2 := ih B (fun x hx => hmem x (List.mem_cons_of_mem _ hx))
        (by simpa using hlen)
      refine ⟨?_, ?_⟩
      · show ((a ++ b).take 16 :: _) = a :: A
        rw [List.take_left' ha, ih2.1]
      · show ((a ++ b).drop 16 :: _) = b :: B
        rw [List.drop_left' ha, ih2.2]

theorem flatten_spreadRound (src : List Nat) (k : Nat)
    (h : 16 * k ≤ src.length) :
    (spreadRound src k).flatten = src.take (16 * k) := by
  induction k with
  | zero => simp [spreadRound]
  | succ k ih =>
    have hk : 16 * k ≤ src.length := by omega
    unfold spreadRound at *
    rw [List.range_succ, List.map_append, List.flatten_append, ih hk]
    simp only [List.map_cons, List.map_nil, List.flatten_cons,
      List.flatten_nil, List.append_nil]
    rw [← List.take_add, (by omega : 16 * k + 16 = 16 * (k + 1))]

theorem spread_unspread_rounds (k : Nat) :
    ∀ q (src : List Nat), src.length = 16 * k * q →
      unspreadRounds k q (spreadRounds k q src) = src := by
  intro q
  induction q with
  | zero =>
    intro src h
    have hnil : src = [] := List.length_eq_zero.mp (by omega)
    subst hnil
    rfl
  | succ q ih =>
    intro src h
    rw [Nat.mul_succ] at h
    have hlen : 16 * k ≤ src.length := by omega
    show (List.map _ (List.zipWith _ _ _)).flatten ++
        unspreadRounds k q (List.map _ (List.zipWith _ _ _)) = src
    have hA := spreadRound_mem_length src k hlen
    have hlenEq : (spreadRound src k).length =
        (spreadRounds k q (src.drop (16 * k))).length := by
      simp [spreadRound, spreadRounds_length]
    obtain ⟨h1, h2⟩ := zip_append_split _ _ hA hlenEq
    rw [h1, h2, flatten_spreadRound src k hlen,
      ih (src.drop (16 * k)) (by rw [List.length_drop]; omega)]
    exact List.take_append_drop _ _

/-- C7: for every k ≥ 1 and every buffer whose length is a multiple of 16 k,
unspreading the k blocks produced by spreading the buffer returns the buffer
exactly. -/
theorem c7_unspread_spread (k : Nat) (hk : 0 < k) (x : List Nat)
    (h : 16 * k ∣ x.length) :
    unspread_data (spread_data x k) x.length k = x := by
  obtain ⟨q, hq⟩ := h
  unfold spread_data unspread_data
  rw [hq, Nat.mul_div_cancel_left q (by positivity)]
  exact spread_unspread_rounds k q x hq

theorem c7_witness :
    0 < 2 ∧ 16 * 2 ∣ (List.range 64).length ∧
      unspread_data (spread_data (List.range 64) 2) (List.range 64).length 2 =
        List.range 64 :=
  ⟨by norm_num, by rw [List.length_range]; norm_num,
    c7_unspread_spread 2 (by norm_num) (List.range 64)
      (by rw [List.length_range]; norm_num)⟩

/-! ## get_k_blocks_in_stripe (src/blockaio.c:68-74) -/

/-- The while loop of get_k_blocks_in_stripe on the current count: while
count > 1 and shard_ids[count-2] = shard_ids[count-1], decrement count. -/
def kAux (ids : List Nat) : Nat → Nat
  | 0 => 0
  | 1 => 1
  | c+2 => if ids.getD c 0 = ids.getD (c+1) 0 then kAux ids (c+1) else c+2

/-- get_k_blocks_in_stripe (src/blockaio.c:68-74): strips trailing duplicate
shard ids starting from count 8. -/
def get_k_blocks_in_stripe (ids : List Nat) : Nat := kAux ids 8

theorem getD_of_lt (l : List Nat) (i : Nat) (h : i < l.length) :
    l.getD i 0 = l.get ⟨i, h⟩ := by
  rw [List.getD_eq_getElem?_getD, List.getElem?_eq_getElem h]
  rfl

theorem getD_replicate (n a i : Nat) (h : i < n) :
    (List.replicate n a).getD i 0 = a := by
  rw [List.getD_eq_getElem?_getD, List.getElem?_replicate, if_pos h]
  rfl

/-- C8 counterexample: the array 0 0 1 1 1 1 1 1 is sorted non-decreasing and
has 2 distinct values, but get_k_blocks_in_stripe only strips trailing
duplicates and returns 3. -/
theorem c8_counterexample :
    List.Sorted (· ≤ ·) ([0, 0, 1, 1, 1, 1, 1, 1] : List Nat) ∧
      get_k_blocks_in_stripe [0, 0, 1, 1, 1, 1, 1, 1] = 3 ∧
      ([0, 0, 1, 1, 1, 1, 1, 1] : List Nat).toFinset.card = 2 ∧
      get_k_blocks_in_stripe [0, 0, 1, 1, 1, 1, 1, 1] ≠
        ([0, 0, 1, 1, 1, 1, 1, 1] : List Nat).toFinset.card := by
  constructor
  · decide
  · decide

/-- The loop applied to a strictly increasing prefix xs padded with copies of
its last element stops exactly at the prefix length. -/
theorem kAux_padded (xs : List Nat) (mrep x : Nat) (hne : xs ≠ [])
    (hchain : xs.Chain' (· < ·)) (hlast : xs.getLast hne = x) :
    ∀ j, j ≤ mrep →
      kAux (xs ++ List.replicate mrep x) (xs.length + j) = xs.length := by
  have hxlen : 0 < xs.length := List.length_pos.mpr hne
  intro j
  induction j with
  | zero =>
    intro _
    rcases hl : xs.length with _ | n
    · omega
    rcases hn : n with _ | c
    · rfl
    · show kAux (xs ++ List.replicate mrep x) (c + 2) = c + 2
      have hc2 : c + 2 = xs.length := by omega
      have hgc : (xs ++ List.replicate mrep x).getD c 0 = xs.getD c 0 :=
        List.getD_append _ _ 0 c (by omega)
      have hgc1 : (xs ++ List.replicate mrep x).getD (c+1) 0 = xs.getD (c+1) 0 :=
        List.getD_append _ _ 0 (c+1) (by omega)
      have hlt : xs.getD c 0 < xs.getD (c+1) 0 := by
        rw [getD_of_lt xs c (by omega), getD_of_lt xs (c+1) (by omega)]
        exact List.chain'_iff_get.mp hchain c (by omega)
      rw [kAux, hgc, hgc1, if_neg (by omega)]
  | succ j ih =>
    intro hj
    have hcount : xs.length + (j + 1) = (xs.length + j - 1) + 2 := by omega
    rw [hcount, kAux]
    have hval1 : (xs ++ List.replicate mrep x).getD (xs.length + j) 0 = x := by
      rw [List.getD_append_right _ _ 0 _ (by omega),
        (by omega : xs.length + j - xs.length = j), getD_replicate _ _ _ (by omega)]
    have hval0 : (xs ++ List.replicate mrep x).getD (xs.length + j - 1) 0 = x := by
      rcases Nat.eq_zero_or_pos j with rfl | hjpos
      · rw [(by omega : xs.length + 0 - 1 = xs.length - 1),
          List.getD_append _ _ 0 _ (by omega), ← hlast,
          List.getLast_eq_getElem, getD_of_lt xs _ (by omega)]
        rfl
      · rw [List.getD_append_right _ _ 0 _ (by omega),
          (by omega : xs.length + j - 1 - xs.length = j - 1),
          getD_replicate _ _ _ (by omega)]
    rw [(by omega : xs.length + j - 1 + 1 = xs.length + j),
      hval0, hval1, if_pos rfl]
    exact ih (by omega)

/-- C8 amended: for a header whose 8 shard ids follow the documented format —
a strictly increasing prefix followed by copies of its last entry to fill the
array — get_k_blocks_in_stripe returns the number of distinct shard ids
(equivalently, 8 minus the number of trailing duplicates). For arrays that
are merely sorted non-decreasing the function can exceed the distinct count,
as the counterexample shows. -/
theorem c8_k_blocks_distinct (xs : List Nat) (mrep x : Nat) (hne : xs ≠ [])
    (hchain : xs.Chain' (· < ·)) (hlast : xs.getLast hne = x)
    (hlen : xs.length + mrep = 8) :
    get_k_blocks_in_stripe (xs ++ List.replicate mrep x) =
      (xs ++ List.replicate mrep x).toFinset.card := by
  have hnodup : xs.Nodup := by
    have hp : xs.Pairwise (· < ·) := List.chain'_iff_pairwise.mp hchain
    exact hp.imp Nat.ne_of_lt
  have hxmem : x ∈ xs := hlast ▸ List.getLast_mem hne
  have hcard : (xs ++ List.replicate mrep x).toFinset.card = xs.length := by
    rw [List.toFinset_append]
    have hsub : (List.replicate mrep x).toFinset ⊆ xs.toFinset := by
      intro y hy
      rcases Nat.eq_zero_or_pos mrep with rfl | hm
      · simp at hy
      · rw [List.toFinset_replicate_of_ne_zero (by omega)] at hy
        rw [Finset.mem_singleton.mp hy]
        exact List.mem_toFinset.mpr hxmem
    rw [Finset.union_eq_left.mpr hsub]
    exact List.toFinset_card_of_nodup hnodup
  rw [hcard]
  have := kAux_padded xs mrep x hne hchain hlast mrep le_rfl
  rw [hlen] at this
  exact this

theorem c8_witness :
    ([0, 1, 2] : List Nat) ≠ [] ∧
      ([0, 1, 2] : List Nat).Chain' (· < ·) ∧
      ([0, 1, 2] : List Nat).length + 5 = 8 ∧
      get_k_blocks_in_stripe ([0, 1, 2] ++ List.replicate 5 2) =
        (([0, 1, 2] : List Nat) ++ List.replicate 5 2).toFinset.card :=
  ⟨by decide, by norm_num [List.chain'_cons], by decide,
    c8_k_blocks_distinct [0, 1, 2] 5 2 (by decide)
      (by norm_num [List.chain'_cons]) rfl (by decide)⟩

end Kelp
